import Mathlib

/-!
Verification of the price-reconciliation tool
(`naver_crawl_columbia_c6c7_title_min.py`): a shallow embedding of its pure
data transformations, with theorems checking the specification's claims.
Python strings are modelled as `String`, machine ints as `Int`/`Nat`
(Python ints are unbounded, so no modular wrap is needed), dictionaries as
association lists or explicit update functions, and wall-clock times as
integer seconds.
-/

namespace PriceTool

/-- Model of Python `str.lower()` (ASCII case folding; the Korean literals
used by the tool have no case). -/
def py_lower (s : String) : String := String.mk (s.data.map Char.toLower)

/-- Model of Python `str.upper()` (ASCII case folding). -/
def py_upper (s : String) : String := String.mk (s.data.map Char.toUpper)

/-- Characters of Python `str.strip()`: leading and trailing whitespace
removed. -/
def py_trim_chars (l : List Char) : List Char :=
  ((l.dropWhile Char.isWhitespace).reverse.dropWhile Char.isWhitespace).reverse

/-- Model of Python `str.strip()` (whitespace stripping; Lean's whitespace
set covers the space, tab and newline characters these CSV fields use). -/
def py_trim (s : String) : String := String.mk (py_trim_chars s.data)

/-- Whether the first list is a prefix of the second (used to model
substring scanning). -/
def begins_with : List Char → List Char → Bool
  | [], _ => true
  | _ :: _, [] => false
  | a :: as, b :: bs => a = b && begins_with as bs

/-- Whether the first char list occurs inside the second (contiguously). -/
def has_substr (needle : List Char) : List Char → Bool
  | [] => needle.isEmpty
  | c :: cs => begins_with needle (c :: cs) || has_substr needle cs

/-- Model of Python `needle in hay` on strings (substring containment). -/
def py_in (needle hay : String) : Bool := has_substr needle.data hay.data

/-- Model of Python `str.isdigit()` for the ASCII digits that appear in
`lprice` fields: non-empty and all digits. -/
def py_is_digit (s : String) : Bool := !s.data.isEmpty && s.data.all Char.isDigit

/-- Decimal value of a list of digit characters (empty list gives 0). -/
def digits_val (l : List Char) : Nat :=
  l.foldl (fun a c => a * 10 + (c.toNat - 48)) 0

/-- Digits of a Python `int(...)` literal body: digit characters with single
underscores allowed between digits, as Python's `int` accepts. -/
def int_digits : Nat → List Char → Option Nat
  | acc, [] => some acc
  | acc, c :: cs =>
    if c.isDigit then int_digits (acc * 10 + (c.toNat - 48)) cs
    else if c = '_' then
      match cs with
      | d :: cs2 => if d.isDigit then int_digits (acc * 10 + (d.toNat - 48)) cs2 else none
      | [] => none
    else none

/-- Model of Python `int(s)` on a string: surrounding whitespace stripped,
optional sign, then decimal digits (ASCII; single underscores between digits
accepted). `none` models the `ValueError` path. -/
def py_to_int (s : String) : Option Int :=
  match (py_trim s).data with
  | [] => none
  | c :: cs =>
    if c = '+' then
      match cs with
      | [] => none
      | d :: ds => if d.isDigit then (int_digits (d.toNat - 48) ds).map Int.ofNat else none
    else if c = '-' then
      match cs with
      | [] => none
      | d :: ds => if d.isDigit then (int_digits (d.toNat - 48) ds).map (fun n => -(n : Int)) else none
    else if c.isDigit then (int_digits (c.toNat - 48) cs).map Int.ofNat
    else none

/-- Embedding of `_to_int_safe`: `int(x)` with a default on failure. -/
def to_int_safe (x : String) (default : Int) : Int := (py_to_int x).getD default

/-- Helper for `strip_html_tags`: chars after the first `>` of a list, if any. -/
def tag_close : List Char → Option (List Char)
  | [] => none
  | c :: cs => if c = Char.ofNat 62 then some cs else tag_close cs

/-- Fuel-indexed core of `strip_html_tags`; fuel bounds the recursion depth
(the input length always suffices). Models `re.sub(r"<[^>]+>", "", s)`:
each `<` followed by at least one non-`>` char and then a `>` is removed
together with that span, leftmost-first. -/
def strip_tags_fuel : Nat → List Char → List Char
  | 0, l => l
  | _ + 1, [] => []
  | fuel + 1, c :: cs =>
    if c = Char.ofNat 60 then
      match cs with
      | [] => [c]
      | d :: ds =>
        if d = Char.ofNat 62 then c :: strip_tags_fuel fuel cs
        else
          match tag_close ds with
          | some rest => strip_tags_fuel fuel rest
          | none => c :: strip_tags_fuel fuel cs
    else c :: strip_tags_fuel fuel cs

/-- Embedding of `strip_html_tags` (regex removal of `<[^>]+>` spans). -/
def strip_html_tags (s : String) : String :=
  String.mk (strip_tags_fuel s.data.length s.data)

/-- A search-result item, with the fields the tool reads from the shopping
API's JSON. A missing field is modelled as `""`, which the source's
`(it.get(...) or "")` coalescing makes equivalent. -/
structure Item where
  lprice : String
  mallName : String
  title : String
  link : String
  image : String
deriving Repr, DecidableEq

/-- Key used by `pick_lowest_item` and `pick_top_n_by_price`:
`_to_int_safe(it.get("lprice"), default=10**18)`. -/
def lp_key (it : Item) : Int := to_int_safe it.lprice (10 ^ 18)

/-- The accessory-noise denylist of `filter_items_for_accuracy`. -/
def bad_terms : List String := ["호환", "케이스", "필름", "스티커", "리필", "커버"]

/-- Embedding of `[e.strip().lower() for e in exclude_malls if e.strip()]`. -/
def lowered_excludes (exclude_malls : List String) : List String :=
  exclude_malls.filterMap fun e => if (py_trim e) = "" then none else some (py_lower (py_trim e))

/-- The per-item predicate of `filter_items_for_accuracy`'s loop: the item
is appended exactly when none of the four `continue` guards fire. -/
def keep_item (min_price max_price : Option Int) (lex : List String) (it : Item) : Bool :=
  let lp := to_int_safe it.lprice (-1)
  let mall := py_lower (py_trim it.mallName)
  let title := py_lower (strip_html_tags it.title)
  (match min_price with | some m => decide (m ≤ lp) | none => true) &&
  (match max_price with | some m => decide (lp ≤ m) | none => true) &&
  !(lex.any fun ex => py_in ex mall) &&
  !(bad_terms.any fun t => py_in t title)

/-- Embedding of `filter_items_for_accuracy` (with its redundant early
return on an empty input list). -/
def filter_items_for_accuracy (items : List Item) (min_price max_price : Option Int)
    (exclude_malls : List String) : List Item :=
  match items with
  | [] => []
  | _ => items.filter (keep_item min_price max_price (lowered_excludes exclude_malls))

/-- Embedding of `pick_lowest_item`: Python `min(items, key=lp)`, which
keeps the first element whose key is minimal (later elements replace the
current one only on strictly smaller key). -/
def pick_lowest_item : List Item → Option Item
  | [] => none
  | x :: xs => some (xs.foldl (fun acc it => if lp_key it < lp_key acc then it else acc) x)

/-- Stable insertion used to model Python's stable `sorted(items, key=lp)`:
an element is placed before the first already-sorted element whose key is
not smaller, so equal keys keep their input order. -/
def insert_asc (x : Item) : List Item → List Item
  | [] => [x]
  | y :: ys => if lp_key x ≤ lp_key y then x :: y :: ys else y :: insert_asc x ys

/-- Model of Python `sorted(items, key=lp)`: a stable ascending sort by
`lp_key` (all stable sorts agree, so insertion sort is a faithful model). -/
def py_sorted : List Item → List Item
  | [] => []
  | x :: xs => insert_asc x (py_sorted xs)

/-- Embedding of `pick_top_n_by_price`: `sorted(items, key=lp)[:n]` (with
its redundant early return on an empty list). -/
def pick_top_n_by_price (items : List Item) (n : Nat) : List Item :=
  match items with
  | [] => []
  | _ => (py_sorted items).take n

/-- The trusted-seller term list of `compute_confidence`. -/
def trust_mall_terms : List String :=
  ["공식", "브랜드", "백화점", "현대", "롯데", "신세계", "네이버", "스마트스토어"]

/-- Embedding of `compute_confidence`: additive score over three substring
signals, clamped below by `max(0, score)` as in the source. -/
def compute_confidence (style_code : String) (best_item : Option Item) : Int :=
  match best_item with
  | none => 0
  | some b =>
    let title := py_lower (strip_html_tags b.title)
    let mall := py_lower b.mallName
    let code_l := py_lower style_code
    let score : Int :=
      (if !(code_l = "") && py_in code_l title then 2 else 0)
      + (if py_in "columbia" title || py_in "컬럼비아" title then 1 else 0)
      + (if trust_mall_terms.any (fun t => py_in t mall) then 1 else 0)
    max 0 score

/-- The fallback loop of `choose_best_image` over the top items: first
non-empty (whitespace-stripped) image, else `""`. -/
def choose_from_items : List Item → String
  | [] => ""
  | it :: rest =>
    let img := py_trim it.image
    if img ≠ "" then img else choose_from_items rest

/-- Embedding of `choose_best_image`: the best item's stripped image when
non-empty, else the first non-empty stripped image among `top_items`. -/
def choose_best_image (best_item : Option Item) (top_items : List Item) : String :=
  match best_item with
  | some b =>
    let img := py_trim b.image
    if img ≠ "" then img else choose_from_items top_items
  | none => choose_from_items top_items

/-- Case-insensitive substring containment, modelling pandas
`Series.str.contains(pat, case=False)` on string values. -/
def contains_ci (pat s : String) : Bool := py_in (py_lower pat) (py_lower s)

/-- The non-product-image URL patterns excluded by
`build_official_image_map`. -/
def bad_url (u : String) : Bool :=
  contains_ci "/images/pc/common/ico_" u || contains_ci "/data/banner/" u ||
  contains_ci "gift_banner" u || contains_ci "icon" u

/-- Whether a URL is kept as a product image
(`str.contains("/data/ProductImages/", case=False)`). -/
def is_product_url (u : String) : Bool := contains_ci "/data/ProductImages/" u

/-- A row of `official_hashes.csv`, already read as strings; a missing
`aHash64` cell is `none` (pandas renders it as the string `"nan"`). -/
structure OfficialRow where
  product_name : String
  image_url : String
  aHash64 : Option String
deriving Repr, DecidableEq

/-- After a matched extension, the URL regex requires `?` or end of string. -/
def after_ext_ok : List Char → Bool
  | [] => true
  | c :: _ => c = '?'

/-- The `\.(?:jpg|jpeg|png|webp)(?:\?|$)` tail of the code-extraction regex,
applied (case-insensitively) to the chars after the dot. -/
def ext_ok (l : List Char) : Bool :=
  ["jpg", "jpeg", "png", "webp"].any fun e =>
    py_lower (String.mk (l.take e.length)) = e && after_ext_ok (l.drop e.length)

/-- One attempt of the URL code regex `/([A-Z]\d{2}[A-Z]{2}\d{7})\.ext` with
`re.IGNORECASE`, anchored at the head of the char list; the captured group is
upper-cased as in the source. -/
def code_at : List Char → Option String
  | '/' :: c1 :: d1 :: d2 :: c2 :: c3 :: e1 :: e2 :: e3 :: e4 :: e5 :: e6 :: e7 :: '.' :: rest =>
    if c1.isAlpha && d1.isDigit && d2.isDigit && c2.isAlpha && c3.isAlpha &&
       e1.isDigit && e2.isDigit && e3.isDigit && e4.isDigit && e5.isDigit &&
       e6.isDigit && e7.isDigit && ext_ok rest then
      some (py_upper (String.mk [c1, d1, d2, c2, c3, e1, e2, e3, e4, e5, e6, e7]))
    else none
  | _ => none

/-- Leftmost match of the URL code regex (pandas `str.extract` searches). -/
def extract_code_url : List Char → Option String
  | [] => none
  | c :: cs =>
    match code_at (c :: cs) with
    | some code => some code
    | none => extract_code_url cs

/-- One attempt of the product-name regex `\(([A-Z]\d{2}[A-Z]{2}\d{7})\)`
(no IGNORECASE), anchored at the head of the char list. -/
def code_at_paren : List Char → Option String
  | '(' :: c1 :: d1 :: d2 :: c2 :: c3 :: e1 :: e2 :: e3 :: e4 :: e5 :: e6 :: e7 :: ')' :: _ =>
    if c1.isUpper && d1.isDigit && d2.isDigit && c2.isUpper && c3.isUpper &&
       e1.isDigit && e2.isDigit && e3.isDigit && e4.isDigit && e5.isDigit &&
       e6.isDigit && e7.isDigit then
      some (py_upper (String.mk [c1, d1, d2, c2, c3, e1, e2, e3, e4, e5, e6, e7]))
    else none
  | _ => none

/-- Leftmost match of the parenthesised-code regex in a product name. -/
def extract_code_name : List Char → Option String
  | [] => none
  | c :: cs =>
    match code_at_paren (c :: cs) with
    | some code => some code
    | none => extract_code_name cs

/-- Code of an official row: from the image URL first, else from the
product name's parenthesised code (the `miss` fill-in of the source). -/
def row_code (r : OfficialRow) : Option String :=
  match extract_code_url r.image_url.data with
  | some c => some c
  | none => extract_code_name r.product_name.data

/-- The `aHash64` noise filter: when the column is present, keep rows whose
hash string is neither empty nor `"0"` (a missing cell stringifies to
`"nan"`, which passes). -/
def hash_ok (has_hash_col : Bool) (r : OfficialRow) : Bool :=
  if has_hash_col then
    let h := match r.aHash64 with | some s => s | none => "nan"
    !(h = "") && !(h = "0")
  else true

/-- Stable ascending insertion by code for `sort_values(["code"])`. -/
def insert_code (x : String × OfficialRow) :
    List (String × OfficialRow) → List (String × OfficialRow)
  | [] => [x]
  | y :: ys => if y.1 < x.1 then y :: insert_code x ys else x :: y :: ys

/-- Sort of the coded rows by code (ascending; a stable model of the
pandas sort — the theorems only use membership, which any sort order
preserves). -/
def sort_by_code : List (String × OfficialRow) → List (String × OfficialRow)
  | [] => []
  | x :: xs => insert_code x (sort_by_code xs)

/-- Fuel-indexed core of `drop_duplicates("code", keep="first")`; the fuel
bounds the recursion depth (the input length always suffices, since the
filtered tail is never longer than the tail). -/
def dedup_fuel : Nat → List (String × String) → List (String × String)
  | 0, l => l
  | _ + 1, [] => []
  | fuel + 1, p :: ps => p :: dedup_fuel fuel (ps.filter fun q => !(q.1 = p.1))

/-- Embedding of `drop_duplicates("code", keep="first")`. -/
def dedup_by_code (l : List (String × String)) : List (String × String) :=
  dedup_fuel l.length l

/-- First-match association lookup, the observable semantics of the Python
dict built from the deduplicated (unique-key) pairs. -/
def dict_get (k : String) : List (String × String) → Option String
  | [] => none
  | p :: ps => if p.1 = k then some p.2 else dict_get k ps

/-- Embedding of `build_official_image_map` on the parsed CSV rows: drop
noise URLs, keep product-image URLs, extract a code per row (URL first,
then product name), apply the hash filter, sort by code and keep the first
row per code; the result maps code to image URL. -/
def build_official_image_map (rows : List OfficialRow) (has_hash_col : Bool) :
    List (String × String) :=
  let prod_rows := (rows.filter fun r => !bad_url r.image_url).filter
    fun r => is_product_url r.image_url
  let coded := prod_rows.filterMap fun r => (row_code r).map fun c => (c, r)
  let hashed := coded.filter fun p => hash_ok has_hash_col p.2
  dedup_by_code ((sort_by_code hashed).map fun p => (p.1, p.2.image_url))

/-- A cache entry file for one product code: its filesystem mtime and the
`items` payload of its JSON (`none` when the file is unreadable or its
`items` field is not a list). -/
structure CacheFile where
  mtime : Int
  items_payload : Option (List Item)
deriving Repr, DecidableEq

/-- Embedding of `load_cache` for one code: `none` when the file is absent;
`none` when its age `now - mtime` exceeds `ttl_hours * 3600`; otherwise the
parsed `items` list (or `none` on a parse failure). -/
def load_cache (file : Option CacheFile) (now ttl_hours : Int) : Option (List Item) :=
  match file with
  | none => none
  | some f =>
    if ttl_hours * 3600 < now - f.mtime then none
    else f.items_payload

/-- Embedding of `save_cache`: the entry is overwritten with the fresh item
list and the write time becomes its mtime. -/
def save_cache (now : Int) (items : List Item) : CacheFile :=
  { mtime := now, items_payload := some items }

/-- The cache-or-fetch step of `main` (lines 1315-1323): on a hit the cached
items are used and the file is untouched; on a miss the API result is used
and saved over the entry. -/
def cache_fetch_step (file : Option CacheFile) (now ttl_hours : Int)
    (api_items : List Item) : List Item × Option CacheFile :=
  match load_cache file now ttl_hours with
  | some items => (items, file)
  | none => (api_items, some (save_cache now api_items))

/-- A directory entry of the history folder: file name and mtime (a
`getmtime` failure is modelled by the caller passing 0, as the source
substitutes). -/
structure FileEnt where
  name : String
  mtime : Int
deriving Repr, DecidableEq

/-- The date token of a file name matching `result_(\d{4})\.csv` with
`re.IGNORECASE` (the source's startswith/endswith guards are subsumed by
the anchored regex). `none` when the name does not match. -/
def result_token (fn : String) : Option String :=
  match (py_lower fn).data with
  | 'r' :: 'e' :: 's' :: 'u' :: 'l' :: 't' :: '_' :: d1 :: d2 :: d3 :: d4 :: '.' :: 'c' :: 's' :: 'v' :: [] =>
    if d1.isDigit && d2.isDigit && d3.isDigit && d4.isDigit then
      some (String.mk [d1, d2, d3, d4])
    else none
  | _ => none

/-- The candidate files of `find_previous_result_csv`: names matching the
`result_<4 digits>.csv` pattern whose token differs from today's. -/
def considered_files (dir : List FileEnt) (today_mmdd : String) : List FileEnt :=
  dir.filter fun f =>
    match result_token f.name with
    | some t => decide (t ≠ today_mmdd)
    | none => false

/-- Stable descending insertion by mtime, modelling Python's stable
`list.sort(key=mtime, reverse=True)`: among equal mtimes the original
listing order is kept. -/
def insert_desc (x : FileEnt) : List FileEnt → List FileEnt
  | [] => [x]
  | y :: ys => if y.mtime ≤ x.mtime then x :: y :: ys else y :: insert_desc x ys

/-- Stable descending sort by mtime. -/
def sort_desc_mtime : List FileEnt → List FileEnt
  | [] => []
  | x :: xs => insert_desc x (sort_desc_mtime xs)

/-- Embedding of `find_previous_result_csv`: among the considered files,
the name of the one with the latest mtime (`none` when there are none).
The returned path is modelled by the bare file name. -/
def find_previous_result_csv (dir : List FileEnt) (today_mmdd : String) : Option String :=
  match sort_desc_mtime (considered_files dir today_mmdd) with
  | [] => none
  | f :: _ => some f.name

/-- A CSV cell as the tool sees it through pandas: missing (`NaN`/`None`),
a numeric value, or a string. -/
inductive Cell where
  | cNone : Cell
  | cInt : Int → Cell
  | cStr : String → Cell
deriving Repr, DecidableEq

/-- Integer part of a Python decimal float literal (digits, optional dot,
digits; at least one digit overall). Models `int(float(s))` truncation for
the decimal literals that occur in the snapshot CSVs; exponent forms are
out of the modelled grammar and map to `none`. -/
def float_core (l : List Char) : Option Nat :=
  let ds := l.takeWhile Char.isDigit
  let rest := l.dropWhile Char.isDigit
  match rest with
  | [] => if ds.isEmpty then none else some (digits_val ds)
  | '.' :: rest2 =>
    let fs := rest2.takeWhile Char.isDigit
    let rest3 := rest2.dropWhile Char.isDigit
    if rest3.isEmpty && !(ds.isEmpty && fs.isEmpty) then some (digits_val ds) else none
  | _ => none

/-- Model of Python `int(float(s))`: strip, optional sign, decimal literal,
truncation toward zero. -/
def py_float_to_int (s : String) : Option Int :=
  match (py_trim s).data with
  | [] => none
  | c :: cs =>
    if c = '+' then (float_core cs).map Int.ofNat
    else if c = '-' then (float_core cs).map fun n => -(n : Int)
    else (float_core (c :: cs)).map Int.ofNat

/-- Embedding of the `to_int_or_none` closure of `load_previous_prices`. -/
def to_int_or_none : Cell → Option Int
  | .cNone => none
  | .cInt n => some n
  | .cStr s => py_float_to_int s

/-- A row of a previous result CSV as `load_previous_prices` reads it:
the stringified `코드` cell and the raw `네이버최저가` cell. -/
structure PrevRow where
  code : String
  naver_low : Cell
deriving Repr, DecidableEq

/-- Embedding of `load_previous_prices`: a dict from stripped non-empty
codes to the parsed previous price, later rows overwriting earlier ones. -/
def load_previous_prices (rows : List PrevRow) : String → Option (Option Int) :=
  rows.foldl
    (fun m r =>
      let c := py_trim r.code
      if c = "" then m
      else fun k => if k = c then some (to_int_or_none r.naver_low) else m k)
    (fun _ => none)

/-- The empty previous map used when no previous CSV exists. -/
def empty_prev_map : String → Option (Option Int) := fun _ => none

/-- Embedding of `prev_map.get(style_code, {}).get("prev_naver")`. -/
def prev_lookup (m : String → Option (Option Int)) (code : String) : Option Int :=
  match m code with
  | none => none
  | some v => v

/-- The delta computation of `main` (lines 1369-1372): `current - previous`
when the looked-up previous price is an int, else absent. -/
def delta_of (m : String → Option (Option Int)) (code : String) (current : Int) : Option Int :=
  match prev_lookup m code with
  | some p => some (current - p)
  | none => none

/-- Outcome of one HTTP attempt of `fetch_naver_shop_with_retry`: a parsed
item list, an `HTTPError` carrying its status code (`getattr(e, "code",
None)` may be absent), or any other exception (timeout, connection error,
JSON failure). -/
inductive NetOutcome where
  | ok : List Item → NetOutcome
  | httpError : Option Nat → NetOutcome
  | exn : NetOutcome
deriving Repr, DecidableEq

/-- The retry condition on an `HTTPError`:
`code in (429, 500, 502, 503, 504) or (code and code >= 500)`. -/
def transient_code : Option Nat → Bool
  | some c =>
    (c = 429 || c = 500 || c = 502 || c = 503 || c = 504) || (!(c = 0) && decide (500 ≤ c))
  | none => false

/-- The attempt loop of `fetch_naver_shop_with_retry`, indexed by the
remaining loop iterations (`max_retries + 1 - attempt`). The network is a
function from attempt number to outcome; the returned list of rationals
records the back-off sleeps `base_sleep * 2 ** attempt` performed, in
order. The zero-fuel case is the `return []` after the loop. -/
def fetch_aux (net : Nat → NetOutcome) (max_retries : Nat) (base_sleep : ℚ) :
    Nat → Nat → List Item × List ℚ
  | 0, _ => ([], [])
  | fuel + 1, attempt =>
    match net attempt with
    | .ok items => (items, [])
    | .httpError code =>
      if attempt < max_retries && transient_code code then
        let r := fetch_aux net max_retries base_sleep fuel (attempt + 1)
        (r.1, base_sleep * 2 ^ attempt :: r.2)
      else ([], [])
    | .exn =>
      if attempt < max_retries then
        let r := fetch_aux net max_retries base_sleep fuel (attempt + 1)
        (r.1, base_sleep * 2 ^ attempt :: r.2)
      else ([], [])

/-- Embedding of `fetch_naver_shop_with_retry`: the loop
`for attempt in range(max_retries + 1)` started at attempt 0. The function
is total — every exception path is caught and yields a list — so the model
returns a plain pair (items, sleeps). -/
def fetch_naver_shop_with_retry (net : Nat → NetOutcome) (max_retries : Nat)
    (base_sleep : ℚ) : List Item × List ℚ :=
  fetch_aux net max_retries base_sleep (max_retries + 1) 0

/-- The back-off delays `base_sleep * 2 ** a` for attempts
`first, first + 1, ..., first + count - 1`, in order. -/
def backoff_from (base_sleep : ℚ) : Nat → Nat → List ℚ
  | _, 0 => []
  | first, count + 1 => base_sleep * 2 ^ first :: backoff_from base_sleep (first + 1) count

/-- The ampersand character (written by code point to keep the HTML-escape
definitions uniform). -/
def amp_c : Char := Char.ofNat 38

/-- The double-quote character. -/
def quot_c : Char := Char.ofNat 34

/-- The apostrophe character. -/
def apos_c : Char := Char.ofNat 39

/-- The less-than character. -/
def lt_c : Char := Char.ofNat 60

/-- The greater-than character. -/
def gt_c : Char := Char.ofNat 62

/-- Model of Python `str.replace(old, new)` for a single-character `old`:
every occurrence is replaced. -/
def replace_char (c : Char) (rep : List Char) : List Char → List Char
  | [] => []
  | x :: xs => if x = c then rep ++ replace_char c rep xs else x :: replace_char c rep xs

/-- Replacement text for `&`. -/
def amp_rep : List Char := [amp_c, 'a', 'm', 'p', ';']

/-- Replacement text for the double quote. -/
def quot_rep : List Char := [amp_c, 'q', 'u', 'o', 't', ';']

/-- Replacement text for the apostrophe. -/
def apos_rep : List Char := [amp_c, '#', '3', '9', ';']

/-- Replacement text for the less-than sign. -/
def lt_rep : List Char := [amp_c, 'l', 't', ';']

/-- Replacement text for the greater-than sign. -/
def gt_rep : List Char := [amp_c, 'g', 't', ';']

/-- Embedding of `_safe_attr` on the character list: the source's five
`str.replace` calls in their order (`&` first, then `"`, `'`, `<`, `>`). -/
def safe_attr_chars (s : List Char) : List Char :=
  replace_char gt_c gt_rep
    (replace_char lt_c lt_rep
      (replace_char apos_c apos_rep
        (replace_char quot_c quot_rep
          (replace_char amp_c amp_rep s))))

/-- Embedding of `_safe_attr` on strings (the `None` input maps to `""`
before this point in the source). -/
def safe_attr (s : String) : String := String.mk (safe_attr_chars s.data)

/-- Per-character escape equivalent to the sequential replacements (proved
below, not assumed): what one input character contributes to the output. -/
def esc_char (c : Char) : List Char :=
  if c = amp_c then amp_rep
  else if c = quot_c then quot_rep
  else if c = apos_c then apos_rep
  else if c = lt_c then lt_rep
  else if c = gt_c then gt_rep
  else [c]

/-- Whether a char list starts with the tail of one of the five escape
entities (everything an `&` must be followed by). -/
def entity_tail (l : List Char) : Bool :=
  begins_with ['a', 'm', 'p', ';'] l || begins_with ['q', 'u', 'o', 't', ';'] l ||
  begins_with ['#', '3', '9', ';'] l || begins_with ['l', 't', ';'] l ||
  begins_with ['g', 't', ';'] l

/-- Every ampersand in the list is immediately followed by the tail of one
of the five escape entities. -/
def amp_ok : List Char → Bool
  | [] => true
  | c :: cs => (if c = amp_c then entity_tail cs else true) && amp_ok cs

/-- The simplified top-3 entry stored on an output row (`main`'s `top3`
list): parsed price, seller, link. -/
structure Top3Row where
  lprice : Option Int
  mallName : String
  link : String
deriving Repr, DecidableEq

/-- An output row of the tool (`results.append({...})` in `main`). -/
structure ResultRow where
  code : String
  name_en : String
  name_ko : String
  official_price : Option Int
  naver_price : Int
  diff : Option Int
  mall : String
  link : String
  image_final : String
  image_official : String
  image_naver : String
  naver_title : String
  confidence : Int
  top3 : List Top3Row
  prev_naver : Option Int
  delta_naver : Option Int
deriving Repr, DecidableEq

/-- Embedding of `_to_int_price`: every non-digit character of the cell's
string form is dropped and the remaining digits are read as an int
(`none` for a missing cell or when no digit remains). -/
def to_int_price (c : Cell) : Option Int :=
  let from_str := fun (s : String) =>
    let ds := s.data.filter Char.isDigit
    if ds.isEmpty then none else some ((digits_val ds : Nat) : Int)
  match c with
  | .cNone => none
  | .cInt n => from_str (toString n)
  | .cStr s => from_str s

/-- The filtered item list of one product in `main`. -/
def items_of (raw : List Item) (min_price max_price : Option Int)
    (exclude_malls : List String) : List Item :=
  filter_items_for_accuracy raw min_price max_price exclude_malls

/-- The best (lowest-priced) filtered item of one product. -/
def best_of (raw : List Item) (min_price max_price : Option Int)
    (exclude_malls : List String) : Option Item :=
  pick_lowest_item (items_of raw min_price max_price exclude_malls)

/-- The top-3 filtered items of one product. -/
def top3_of (raw : List Item) (min_price max_price : Option Int)
    (exclude_malls : List String) : List Item :=
  pick_top_n_by_price (items_of raw min_price max_price exclude_malls) 3

/-- The numeric lowest price of one product:
`int(lp) if lp and str(lp).isdigit() else None` on the best item's
`lprice`. -/
def naver_price_of (raw : List Item) (min_price max_price : Option Int)
    (exclude_malls : List String) : Option Int :=
  match best_of raw min_price max_price exclude_malls with
  | none => none
  | some b =>
    if py_is_digit b.lprice then some ((digits_val b.lprice.data : Nat) : Int) else none

/-- The marketplace image of one product (`choose_best_image(best, top3)`). -/
def naver_image_of (raw : List Item) (min_price max_price : Option Int)
    (exclude_malls : List String) : String :=
  choose_best_image (best_of raw min_price max_price exclude_malls)
    (top3_of raw min_price max_price exclude_malls)

/-- The official image of one product:
`official_img_map.get(style_code.upper(), "")`. -/
def official_image_of (omap : List (String × String)) (style_code : String) : String :=
  (dict_get (py_upper style_code) omap).getD ""

/-- The resolved final image of one product:
`official_image if official_image else naver_image`. -/
def final_image_of (omap : List (String × String)) (style_code : String)
    (raw : List Item) (min_price max_price : Option Int)
    (exclude_malls : List String) : String :=
  let oi := official_image_of omap style_code
  if oi ≠ "" then oi else naver_image_of raw min_price max_price exclude_malls

/-- The simplified `top3` entries stored on a row. -/
def top3_rows (items : List Item) : List Top3Row :=
  items.map fun it =>
    { lprice :=
        if py_is_digit it.lprice then some ((digits_val it.lprice.data : Nat) : Int)
        else none
      mallName := it.mallName
      link := it.link }

/-- Embedding of the per-product body of `main`'s loop (lines 1304-1408),
after the style-code validity guard: the row produced for one candidate
product, or `none` when the product is skipped for a missing numeric
lowest price or a blank resolved final image. -/
def process_product (omap : List (String × String))
    (prev : String → Option (Option Int)) (min_price max_price : Option Int)
    (exclude_malls : List String) (style_code name_en name_ko : String)
    (official_raw : Cell) (raw_items : List Item) : Option ResultRow :=
  let official_price := to_int_price official_raw
  let best := best_of raw_items min_price max_price exclude_malls
  let naver_link := match best with | some b => b.link | none => ""
  let naver_mall := match best with | some b => b.mallName | none => ""
  let naver_title := match best with | some b => strip_html_tags b.title | none => ""
  let naver_image := naver_image_of raw_items min_price max_price exclude_malls
  let official_image := official_image_of omap style_code
  let final_image := if official_image ≠ "" then official_image else naver_image
  match naver_price_of raw_items min_price max_price exclude_malls with
  | none => none
  | some np =>
    if py_trim final_image = "" then none
    else
      let diff := match official_price with
        | some op => if 0 < np then some (op - np) else none
        | none => none
      let prev_naver := prev_lookup prev style_code
      some
        { code := style_code
          name_en := name_en
          name_ko := name_ko
          official_price := official_price
          naver_price := np
          diff := diff
          mall := naver_mall
          link := naver_link
          image_final := final_image
          image_official := official_image
          image_naver := naver_image
          naver_title := naver_title
          confidence := compute_confidence style_code best
          top3 := top3_rows (top3_of raw_items min_price max_price exclude_malls)
          prev_naver := prev_naver
          delta_naver :=
            match prev_naver with
            | some p => some (np - p)
            | none => none }

/-! ### Theorems -/

/-- C9: for all search-result lists and parameters, `filter_items_for_accuracy`
is idempotent — filtering an already-filtered list with the same price bounds
and excluded-seller list returns it unchanged. -/
theorem c9_filter_idempotent (items : List Item) (min_price max_price : Option Int)
    (exclude_malls : List String) :
    filter_items_for_accuracy
        (filter_items_for_accuracy items min_price max_price exclude_malls)
        min_price max_price exclude_malls
      = filter_items_for_accuracy items min_price max_price exclude_malls := by
  cases items with
  | nil => rfl
  | cons x xs =>
    have h1 : filter_items_for_accuracy (x :: xs) min_price max_price exclude_malls
        = (x :: xs).filter (keep_item min_price max_price (lowered_excludes exclude_malls)) := rfl
    rw [h1]
    cases h : (x :: xs).filter (keep_item min_price max_price (lowered_excludes exclude_malls)) with
    | nil => rfl
    | cons y ys =>
      have h2 : filter_items_for_accuracy (y :: ys) min_price max_price exclude_malls
          = (y :: ys).filter (keep_item min_price max_price (lowered_excludes exclude_malls)) := rfl
      rw [h2, ← h, List.filter_filter]
      simp

/-- C7: a cache read is a hit only when the entry file exists and its age is
at most `ttl_hours * 3600` seconds; a strictly older entry is a miss, in
which case the freshly fetched API items are used and the entry is
overwritten with them at the current time. -/
theorem c7_cache_ttl (file : Option CacheFile) (now ttl_hours : Int) (api_items : List Item) :
    (∀ items, load_cache file now ttl_hours = some items →
        ∃ f, file = some f ∧ now - f.mtime ≤ ttl_hours * 3600 ∧ f.items_payload = some items)
    ∧ (∀ f, file = some f → ttl_hours * 3600 < now - f.mtime →
        load_cache file now ttl_hours = none ∧
        cache_fetch_step file now ttl_hours api_items
          = (api_items, some (save_cache now api_items))) := by
  constructor
  · intro items h
    cases file with
    | none => simp [load_cache] at h
    | some f =>
      by_cases hage : ttl_hours * 3600 < now - f.mtime
      · simp [load_cache, hage] at h
      · refine ⟨f, rfl, le_of_not_lt hage, ?_⟩
        simpa [load_cache, hage] using h
  · intro f hf hage
    subst hf
    have hl : load_cache (some f) now ttl_hours = none := by simp [load_cache, hage]
    exact ⟨hl, by simp [cache_fetch_step, hl]⟩

/-- C1: a candidate product processed by the main loop produces an output
row if and only if a numeric lowest price was found for it and the resolved
final image is non-blank; a product failing either check is silently
skipped (`none`), not an error. -/
theorem c1_row_kept_iff (omap : List (String × String))
    (prev : String → Option (Option Int)) (min_price max_price : Option Int)
    (exclude_malls : List String) (style_code name_en name_ko : String)
    (official_raw : Cell) (raw_items : List Item) :
    process_product omap prev min_price max_price exclude_malls style_code
        name_en name_ko official_raw raw_items ≠ none
      ↔ ((naver_price_of raw_items min_price max_price exclude_malls).isSome = true
         ∧ py_trim (final_image_of omap style_code raw_items min_price max_price
              exclude_malls) ≠ "") := by
  cases hnp : naver_price_of raw_items min_price max_price exclude_malls with
  | none => simp [process_product, hnp]
  | some np =>
    by_cases himg : py_trim (final_image_of omap style_code raw_items min_price max_price
        exclude_malls) = ""
    · simp only [process_product, final_image_of] at himg ⊢
      simp [hnp, himg]
    · simp only [process_product, final_image_of] at himg ⊢
      simp [hnp, himg]

/-- Helper for C5: a value stored in the previous-price dict comes from a
row of the previous CSV whose stripped code is the key (or was already in
the initial map). -/
theorem load_prev_foldl_spec (rows : List PrevRow) (m0 : String → Option (Option Int))
    (k : String) (v : Option Int) :
    (rows.foldl
        (fun m r =>
          let c := py_trim r.code
          if c = "" then m
          else fun q => if q = c then some (to_int_or_none r.naver_low) else m q)
        m0) k = some v →
      (∃ r ∈ rows, py_trim r.code = k ∧ to_int_or_none r.naver_low = v) ∨ m0 k = some v := by
  induction rows generalizing m0 with
  | nil => intro h; exact Or.inr h
  | cons r rs ih =>
    intro h
    rcases ih _ h with hex | hm
    · obtain ⟨r2, hr2, h1, h2⟩ := hex
      exact Or.inl ⟨r2, List.mem_cons_of_mem _ hr2, h1, h2⟩
    · by_cases hc : py_trim r.code = ""
      · right
        simpa [hc] using hm
      · by_cases hk : k = py_trim r.code
        · left
          refine ⟨r, List.mem_cons_self _ _, hk.symm, ?_⟩
          simp only [hc, hk, if_neg, if_pos, if_true, if_false] at hm
          have hm2 : some (to_int_or_none r.naver_low) = some v := by
            simpa [hc, hk] using hm
          exact (Option.some.inj hm2)
        · right
          simpa [hc, hk] using hm

/-- C5: the emitted `delta_naver` equals `current - previous` exactly when
the loaded previous-snapshot map yields an integer previous price for the
code; with no previous file (empty map), a missing code, or an unparseable
previous value, the delta is absent (`none`), never zero. Any stored
previous value traces back to a CSV row with that code, and every kept
output row carries exactly this delta for its own price. -/
theorem c5_delta (rows : List PrevRow) (code : String) (current : Int) :
    delta_of (load_previous_prices rows) code current
        = (prev_lookup (load_previous_prices rows) code).map (fun p => current - p)
    ∧ delta_of empty_prev_map code current = none
    ∧ (∀ p, prev_lookup (load_previous_prices rows) code = some p →
        ∃ r ∈ rows, py_trim r.code = code ∧ to_int_or_none r.naver_low = some p)
    ∧ (∀ omap prev min_price max_price exclude_malls name_en name_ko official_raw
          raw_items row,
        process_product omap prev min_price max_price exclude_malls code name_en
            name_ko official_raw raw_items = some row →
          row.delta_naver = delta_of prev code row.naver_price) := by
  refine ⟨?_, rfl, ?_, ?_⟩
  · cases h : prev_lookup (load_previous_prices rows) code <;> simp [delta_of, h]
  · intro p hp
    unfold prev_lookup at hp
    cases hm : load_previous_prices rows code with
    | none => rw [hm] at hp; exact absurd hp (by simp)
    | some v =>
      rw [hm] at hp
      have := load_prev_foldl_spec rows (fun _ => none) code v hm
      rcases this with ⟨r, hr, h1, h2⟩ | hcontra
      · have hv : v = some p := hp
        exact ⟨r, hr, h1, h2.trans hv⟩
      · exact absurd hcontra (by simp)
  · intro omap prev min_price max_price exclude_malls name_en name_ko official_raw
      raw_items row h
    unfold process_product at h
    cases hnp : naver_price_of raw_items min_price max_price exclude_malls with
    | none => rw [hnp] at h; exact absurd h (by simp)
    | some np =>
      rw [hnp] at h
      simp only at h
      split at h <;> split at h
      · exact absurd h (by simp)
      · have hrow := Option.some.inj h
        subst hrow
        cases hpl : prev_lookup prev code <;> simp [delta_of, hpl]
      · exact absurd h (by simp)
      · have hrow := Option.some.inj h
        subst hrow
        cases hpl : prev_lookup prev code <;> simp [delta_of, hpl]

/-- C4 counterexample: a best item whose title and seller match no signal
yields confidence 0 even though a best item exists, so "0 if and only if no
best item" fails on the code in the only-if direction. -/
theorem c4_counterexample :
    compute_confidence "C6TEST" (some ⟨"1000", "m", "zzz", "", ""⟩) = 0
      ∧ some (⟨"1000", "m", "zzz", "", ""⟩ : Item) ≠ none := by
  constructor
  · decide
  · decide

/-- C4 (amended): `compute_confidence` always returns an integer in the
closed range `[0, 4]`, and it returns 0 whenever no best item exists; the
converse fails (a best item matching no signal also scores 0). -/
theorem c4_confidence_range (style_code : String) (best_item : Option Item) :
    0 ≤ compute_confidence style_code best_item
    ∧ compute_confidence style_code best_item ≤ 4
    ∧ (best_item = none → compute_confidence style_code best_item = 0) := by
  cases best_item with
  | none => exact ⟨le_refl 0, by norm_num [compute_confidence], fun _ => rfl⟩
  | some b =>
    refine ⟨le_max_left 0 _, ?_, fun h => Option.noConfusion h⟩
    have h4 : (if !(py_lower style_code = "")
          && py_in (py_lower style_code) (py_lower (strip_html_tags b.title)) then (2 : Int) else 0)
        + (if py_in "columbia" (py_lower (strip_html_tags b.title))
            || py_in "컬럼비아" (py_lower (strip_html_tags b.title)) then (1 : Int) else 0)
        + (if trust_mall_terms.any (fun t => py_in t (py_lower b.mallName)) then (1 : Int) else 0)
        ≤ 4 := by
      split_ifs <;> norm_num
    calc compute_confidence style_code (some b)
        ≤ max 0 4 := by
          unfold compute_confidence
          exact max_le_max (le_refl 0) h4
      _ = 4 := by norm_num

/-- Helper: the running minimum of `pick_lowest_item` is an element of the
accumulator-extended list. -/
theorem foldl_min_mem (xs : List Item) (x : Item) :
    xs.foldl (fun acc it => if lp_key it < lp_key acc then it else acc) x ∈ x :: xs := by
  induction xs generalizing x with
  | nil => simp
  | cons y ys ih =>
    simp only [List.foldl_cons]
    have h := ih (if lp_key y < lp_key x then y else x)
    rcases List.mem_cons.mp h with he | hm
    · rw [he]
      split <;> simp
    · simp [List.mem_cons, hm]

/-- Helper: the running minimum of `pick_lowest_item` has a key less than
or equal to every element's key. -/
theorem foldl_min_le (xs : List Item) (x : Item) :
    ∀ it ∈ x :: xs,
      lp_key (xs.foldl (fun acc it => if lp_key it < lp_key acc then it else acc) x)
        ≤ lp_key it := by
  induction xs generalizing x with
  | nil =>
    intro it hit
    rcases List.mem_cons.mp hit with rfl | habs
    · exact le_refl _
    · exact absurd habs (List.not_mem_nil it)
  | cons y ys ih =>
    intro it hit
    simp only [List.foldl_cons]
    have hax : lp_key (if lp_key y < lp_key x then y else x) ≤ lp_key x := by
      split
      · exact le_of_lt (by assumption)
      · exact le_refl _
    have hay : lp_key (if lp_key y < lp_key x then y else x) ≤ lp_key y := by
      split
      · exact le_refl _
      · exact le_of_not_lt (by assumption)
    have hhead := ih (if lp_key y < lp_key x then y else x)
      (if lp_key y < lp_key x then y else x)
      (List.mem_cons_self _ _)
    rcases List.mem_cons.mp hit with rfl | h2
    · exact le_trans hhead hax
    · rcases List.mem_cons.mp h2 with rfl | h3
      · exact le_trans hhead hay
      · exact ih _ it (List.mem_cons_of_mem _ h3)

/-- Helper: the running minimum of `pick_lowest_item` is the first element
achieving the minimal key — everything strictly before it in the list has a
strictly greater key. -/
theorem foldl_min_first (xs : List Item) (x : Item) :
    ∃ pre post,
      x :: xs
          = pre ++ (xs.foldl (fun acc it => if lp_key it < lp_key acc then it else acc) x) :: post
      ∧ ∀ a ∈ pre,
          lp_key (xs.foldl (fun acc it => if lp_key it < lp_key acc then it else acc) x)
            < lp_key a := by
  induction xs generalizing x with
  | nil => exact ⟨[], [], rfl, by simp⟩
  | cons y ys ih =>
    simp only [List.foldl_cons]
    by_cases hc : lp_key y < lp_key x
    · rw [if_pos hc]
      obtain ⟨pre, post, heq, hpre⟩ := ih y
      refine ⟨x :: pre, post, ?_, ?_⟩
      · rw [List.cons_append, ← heq]
      · intro a ha
        rcases List.mem_cons.mp ha with rfl | h2
        · exact lt_of_le_of_lt (foldl_min_le ys y y (List.mem_cons_self y ys)) hc
        · exact hpre a h2
    · rw [if_neg hc]
      obtain ⟨pre, post, heq, hpre⟩ := ih x
      cases pre with
      | nil =>
        simp only [List.nil_append] at heq
        injection heq with h1 h2
        refine ⟨[], y :: ys, ?_, by simp⟩
        rw [List.nil_append, ← h1]
      | cons p pre2 =>
        simp only [List.cons_append] at heq
        injection heq with h1 h2
        refine ⟨x :: y :: pre2, post, ?_, ?_⟩
        · rw [List.cons_append, List.cons_append, ← h2]
        · intro a ha
          have hfoldx : lp_key (ys.foldl
              (fun acc it => if lp_key it < lp_key acc then it else acc) x) < lp_key x := by
            have hp := hpre p (List.mem_cons_self p pre2)
            rwa [← h1] at hp
          rcases List.mem_cons.mp ha with rfl | hb
          · exact hfoldx
          · rcases List.mem_cons.mp hb with rfl | hb2
            · exact lt_of_lt_of_le hfoldx (le_of_not_lt hc)
            · exact hpre a (List.mem_cons_of_mem p hb2)

/-- Helper: `insert_asc` produces a permutation of consing the element. -/
theorem perm_insert_asc (x : Item) (l : List Item) : List.Perm (insert_asc x l) (x :: l) := by
  induction l with
  | nil => exact List.Perm.refl _
  | cons y ys ih =>
    simp only [insert_asc]
    split
    · exact List.Perm.refl _
    · exact (ih.cons y).trans (List.Perm.swap x y ys)

/-- Helper: `py_sorted` permutes its input. -/
theorem perm_py_sorted (l : List Item) : List.Perm (py_sorted l) l := by
  induction l with
  | nil => exact List.Perm.refl _
  | cons x xs ih => exact (perm_insert_asc x (py_sorted xs)).trans (ih.cons x)

/-- Helper: `insert_asc` preserves sortedness by the price key. -/
theorem sorted_insert_asc (x : Item) (l : List Item)
    (h : l.Sorted fun a b => lp_key a ≤ lp_key b) :
    (insert_asc x l).Sorted fun a b => lp_key a ≤ lp_key b := by
  induction l with
  | nil => simp [insert_asc]
  | cons y ys ih =>
    simp only [insert_asc]
    split
    · rw [List.sorted_cons]
      refine ⟨?_, h⟩
      intro b hb
      rcases List.mem_cons.mp hb with rfl | hb2
      · assumption
      · exact le_trans (by assumption) (List.rel_of_sorted_cons h b hb2)
    · rw [List.sorted_cons] at h
      obtain ⟨hy, hys⟩ := h
      rw [List.sorted_cons]
      refine ⟨?_, ih hys⟩
      intro b hb
      have hb2 := (perm_insert_asc x ys).mem_iff.mp hb
      rcases List.mem_cons.mp hb2 with rfl | hb3
      · exact le_of_lt (lt_of_not_le (by assumption))
      · exact hy b hb3

/-- Helper: `py_sorted` sorts ascending by the price key. -/
theorem sorted_py_sorted (l : List Item) :
    (py_sorted l).Sorted fun a b => lp_key a ≤ lp_key b := by
  induction l with
  | nil => simp [py_sorted]
  | cons x xs ih => exact sorted_insert_asc x (py_sorted xs) ih

/-- Helper for stability: filtering any one key class through `insert_asc`
puts the inserted element first exactly when it belongs to the class. -/
theorem filter_insert_asc (v : Int) (x : Item) (l : List Item) :
    (insert_asc x l).filter (fun a => lp_key a == v)
      = if lp_key x == v then x :: l.filter (fun a => lp_key a == v)
        else l.filter (fun a => lp_key a == v) := by
  induction l with
  | nil =>
    show List.filter _ [x] = _
    rw [List.filter_cons]
  | cons y ys ih =>
    simp only [insert_asc]
    split
    · rw [List.filter_cons]
    · rename_i hxy
      rw [List.filter_cons, ih, List.filter_cons]
      cases hx : (lp_key x == v) <;> cases hy : (lp_key y == v)
      · simp [hx, hy]
      · simp [hx, hy]
      · simp [hx, hy]
      · exfalso
        have hx2 : lp_key x = v := by simpa using hx
        have hy2 : lp_key y = v := by simpa using hy
        exact hxy (le_of_eq (hx2.trans hy2.symm))

/-- Helper: `py_sorted` is stable — each equal-key class keeps its input
order (its filtered subsequence is unchanged by the sort). -/
theorem stable_py_sorted (v : Int) (l : List Item) :
    (py_sorted l).filter (fun a => lp_key a == v) = l.filter (fun a => lp_key a == v) := by
  induction l with
  | nil => rfl
  | cons x xs ih =>
    simp only [py_sorted]
    rw [filter_insert_asc, ih, List.filter_cons]

/-- C3: on a non-empty filtered list, `pick_lowest_item` returns the first
item whose price key is minimal (so ties break by input order), and
`pick_top_n_by_price items 3` is the length-`min 3 len` prefix of the
stable ascending-by-price sort of the list (the sort shown sorted, a
permutation of the input, and stable on every equal-price class). -/
theorem c3_ranking (items : List Item) (hne : items ≠ []) :
    (∃ b, pick_lowest_item items = some b ∧ b ∈ items
        ∧ (∀ it ∈ items, lp_key b ≤ lp_key it)
        ∧ ∃ pre post, items = pre ++ b :: post ∧ ∀ a ∈ pre, lp_key b < lp_key a)
    ∧ pick_top_n_by_price items 3 = (py_sorted items).take 3
    ∧ (pick_top_n_by_price items 3).length = min 3 items.length
    ∧ (py_sorted items).Sorted (fun a b => lp_key a ≤ lp_key b)
    ∧ List.Perm (py_sorted items) items
    ∧ ∀ v : Int, (py_sorted items).filter (fun a => lp_key a == v)
        = items.filter (fun a => lp_key a == v) := by
  obtain ⟨x, xs, rfl⟩ := List.exists_cons_of_ne_nil hne
  refine ⟨⟨_, rfl, foldl_min_mem xs x, foldl_min_le xs x, foldl_min_first xs x⟩,
    rfl, ?_, sorted_py_sorted _, perm_py_sorted _, fun v => stable_py_sorted v _⟩
  have hlen : (py_sorted (x :: xs)).length = (x :: xs).length :=
    (perm_py_sorted (x :: xs)).length_eq
  calc (pick_top_n_by_price (x :: xs) 3).length
      = ((py_sorted (x :: xs)).take 3).length := rfl
    _ = min 3 (py_sorted (x :: xs)).length := List.length_take 3 _
    _ = min 3 (x :: xs).length := by rw [hlen]

/-- C3 witness: the theorem applied at a concrete two-item list. -/
theorem c3_ranking_witness :
    pick_top_n_by_price
        [⟨"5", "a", "", "", ""⟩, ⟨"3", "b", "", "", ""⟩] 3
      = (py_sorted [⟨"5", "a", "", "", ""⟩, ⟨"3", "b", "", "", ""⟩]).take 3 :=
  (c3_ranking [⟨"5", "a", "", "", ""⟩, ⟨"3", "b", "", "", ""⟩] (by simp)).2.1

/-- Helper: `insert_desc` produces a permutation of consing the element. -/
theorem perm_insert_desc (x : FileEnt) (l : List FileEnt) :
    List.Perm (insert_desc x l) (x :: l) := by
  induction l with
  | nil => exact List.Perm.refl _
  | cons y ys ih =>
    simp only [insert_desc]
    split
    · exact List.Perm.refl _
    · exact (ih.cons y).trans (List.Perm.swap x y ys)

/-- Helper: `sort_desc_mtime` permutes its input. -/
theorem perm_sort_desc (l : List FileEnt) : List.Perm (sort_desc_mtime l) l := by
  induction l with
  | nil => exact List.Perm.refl _
  | cons x xs ih => exact (perm_insert_desc x (sort_desc_mtime xs)).trans (ih.cons x)

/-- Helper: `insert_desc` preserves descending sortedness by mtime. -/
theorem sorted_insert_desc (x : FileEnt) (l : List FileEnt)
    (h : l.Sorted fun a b => b.mtime ≤ a.mtime) :
    (insert_desc x l).Sorted fun a b => b.mtime ≤ a.mtime := by
  induction l with
  | nil => simp [insert_desc]
  | cons y ys ih =>
    simp only [insert_desc]
    split
    · rw [List.sorted_cons]
      refine ⟨?_, h⟩
      intro b hb
      rcases List.mem_cons.mp hb with rfl | hb2
      · assumption
      · exact le_trans (List.rel_of_sorted_cons h b hb2) (by assumption)
    · rw [List.sorted_cons] at h
      obtain ⟨hy, hys⟩ := h
      rw [List.sorted_cons]
      refine ⟨?_, ih hys⟩
      intro b hb
      have hb2 := (perm_insert_desc x ys).mem_iff.mp hb
      rcases List.mem_cons.mp hb2 with rfl | hb3
      · exact le_of_lt (lt_of_not_le (by assumption))
      · exact hy b hb3

/-- Helper: `sort_desc_mtime` sorts descending by mtime. -/
theorem sorted_sort_desc (l : List FileEnt) :
    (sort_desc_mtime l).Sorted fun a b => b.mtime ≤ a.mtime := by
  induction l with
  | nil => simp [sort_desc_mtime]
  | cons x xs ih => exact sorted_insert_desc x (sort_desc_mtime xs) ih

/-- C6: `find_previous_result_csv` considers exactly the directory entries
whose name matches `result_<4-digit token>.csv` (case-insensitively) with a
token different from today's; it returns `none` exactly when no file
qualifies, and otherwise the name of a considered file whose mtime is
greatest — the date tokens themselves are never compared. -/
theorem c6_previous_csv (dir : List FileEnt) (today_mmdd : String) :
    (∀ f, f ∈ considered_files dir today_mmdd ↔
        f ∈ dir ∧ ∃ t, result_token f.name = some t ∧ t ≠ today_mmdd)
    ∧ (find_previous_result_csv dir today_mmdd = none
        ↔ considered_files dir today_mmdd = [])
    ∧ (∀ p, find_previous_result_csv dir today_mmdd = some p →
        ∃ f ∈ considered_files dir today_mmdd, f.name = p
          ∧ ∀ g ∈ considered_files dir today_mmdd, g.mtime ≤ f.mtime) := by
  refine ⟨?_, ?_, ?_⟩
  · intro f
    simp only [considered_files, List.mem_filter]
    constructor
    · rintro ⟨hmem, hp⟩
      refine ⟨hmem, ?_⟩
      cases ht : result_token f.name with
      | none => rw [ht] at hp; exact absurd hp (by simp)
      | some t =>
        rw [ht] at hp
        exact ⟨t, rfl, by simpa using hp⟩
    · rintro ⟨hmem, t, ht, hne⟩
      exact ⟨hmem, by simp [ht, hne]⟩
  · constructor
    · intro h
      unfold find_previous_result_csv at h
      cases hs : sort_desc_mtime (considered_files dir today_mmdd) with
      | nil =>
        have hperm := perm_sort_desc (considered_files dir today_mmdd)
        rw [hs] at hperm
        exact hperm.symm.eq_nil
      | cons f rest => rw [hs] at h; exact absurd h (by simp)
    · intro h
      unfold find_previous_result_csv
      rw [h]
      rfl
  · intro p hp
    unfold find_previous_result_csv at hp
    cases hs : sort_desc_mtime (considered_files dir today_mmdd) with
    | nil => rw [hs] at hp; exact absurd hp (by simp)
    | cons f rest =>
      rw [hs] at hp
      have hperm := perm_sort_desc (considered_files dir today_mmdd)
      rw [hs] at hperm
      have hsorted := sorted_sort_desc (considered_files dir today_mmdd)
      rw [hs] at hsorted
      refine ⟨f, hperm.mem_iff.mp (List.mem_cons_self f rest), by simpa using hp, ?_⟩
      intro g hg
      have hg2 := hperm.mem_iff.mpr hg
      rcases List.mem_cons.mp hg2 with rfl | hg3
      · exact le_refl _
      · exact List.rel_of_sorted_cons hsorted g hg3

/-- Helper: a successful dict lookup returns a stored pair. -/
theorem dict_get_mem (k v : String) (l : List (String × String))
    (h : dict_get k l = some v) : (k, v) ∈ l := by
  induction l with
  | nil => exact absurd h (by simp [dict_get])
  | cons p ps ih =>
    cases p with
    | mk a b =>
      simp only [dict_get] at h
      split at h
      · rename_i hk
        have hv := Option.some.inj h
        have hk2 : a = k := hk
        rw [← hk2, ← hv]
        exact List.mem_cons_self _ _
      · exact List.mem_cons_of_mem _ (ih h)

/-- Helper: membership through `insert_code`. -/
theorem mem_insert_code (x p : String × OfficialRow) (l : List (String × OfficialRow))
    (h : p ∈ insert_code x l) : p = x ∨ p ∈ l := by
  induction l with
  | nil => simpa [insert_code] using h
  | cons y ys ih =>
    simp only [insert_code] at h
    split at h
    · rcases List.mem_cons.mp h with rfl | h2
      · exact Or.inr (List.mem_cons_self _ _)
      · rcases ih h2 with rfl | h3
        · exact Or.inl rfl
        · exact Or.inr (List.mem_cons_of_mem _ h3)
    · rcases List.mem_cons.mp h with rfl | h2
      · exact Or.inl rfl
      · exact Or.inr h2

/-- Helper: membership through `sort_by_code`. -/
theorem mem_sort_by_code (p : String × OfficialRow) (l : List (String × OfficialRow))
    (h : p ∈ sort_by_code l) : p ∈ l := by
  induction l generalizing p with
  | nil => exact h
  | cons x xs ih =>
    rcases mem_insert_code x p (sort_by_code xs) h with rfl | h2
    · exact List.mem_cons_self _ _
    · exact List.mem_cons_of_mem _ (ih p h2)

/-- Helper: membership through `dedup_fuel`. -/
theorem mem_dedup_fuel (p : String × String) (fuel : Nat) :
    ∀ l, p ∈ dedup_fuel fuel l → p ∈ l := by
  induction fuel with
  | zero => intro l h; exact h
  | succ fuel ih =>
    intro l h
    cases l with
    | nil => exact h
    | cons q ps =>
      rcases List.mem_cons.mp h with rfl | h2
      · exact List.mem_cons_self _ _
      · exact List.mem_cons_of_mem _ (List.mem_of_mem_filter (ih _ h2))

/-- Helper: membership through `dedup_by_code`. -/
theorem mem_dedup_by_code (p : String × String) (l : List (String × String)) :
    p ∈ dedup_by_code l → p ∈ l :=
  mem_dedup_fuel p l.length l

/-- Helper: every URL stored in the built official-image map passed the
`/data/ProductImages/` filter. -/
theorem build_map_value_is_product (rows : List OfficialRow) (has_hash_col : Bool)
    (k v : String)
    (h : dict_get k (build_official_image_map rows has_hash_col) = some v) :
    is_product_url v = true := by
  have hmem := dict_get_mem _ _ _ h
  unfold build_official_image_map at hmem
  have hmem2 := mem_dedup_by_code _ _ hmem
  obtain ⟨q, hq, hq2⟩ := List.mem_map.mp hmem2
  have hq3 := mem_sort_by_code _ _ hq
  have hq4 := List.mem_of_mem_filter hq3
  obtain ⟨r, hr, hr2⟩ := List.mem_filterMap.mp hq4
  have hprod : is_product_url r.image_url = true := (List.mem_filter.mp hr).2
  cases hc : row_code r with
  | none => rw [hc] at hr2; exact absurd hr2 (by simp)
  | some c =>
    rw [hc] at hr2
    have hq5 : q = (c, r) := (Option.some.inj hr2).symm
    have hsnd := congrArg Prod.snd hq2
    rw [hq5] at hsnd
    simp only at hsnd
    rw [← hsnd]
    exact hprod

/-- Helper: a product-image URL is never the empty string (it contains the
`/data/ProductImages/` fragment). -/
theorem is_product_url_ne_empty (v : String) (h : is_product_url v = true) : v ≠ "" := by
  intro hv
  subst hv
  exact absurd h (by decide)

/-- Helper: the fallback scan of `choose_best_image` returns the first
non-blank (stripped) image of the list, else `""`. -/
theorem choose_from_items_eq_find (l : List Item) :
    choose_from_items l
      = (match l.find? (fun it => decide (py_trim it.image ≠ "")) with
         | some it => py_trim it.image
         | none => "") := by
  induction l with
  | nil => rfl
  | cons it rest ih =>
    by_cases h : py_trim it.image = ""
    · simp [choose_from_items, List.find?_cons, h, ih]
    · simp [choose_from_items, List.find?_cons, h]

/-- C2: image-source priority on the map built by
`build_official_image_map`. If the map holds an entry for the upper-cased
code, the resolved final image equals that entry's URL regardless of any
marketplace data; with no entry, it equals `choose_best_image`, which is
the best item's non-blank stripped image when present, and otherwise the
first non-blank image among the top-3 items in rank order (or `""`). -/
theorem c2_image_priority (rows : List OfficialRow) (has_hash_col : Bool)
    (style_code : String) (raw_items : List Item) (min_price max_price : Option Int)
    (exclude_malls : List String) :
    (∀ url,
        dict_get (py_upper style_code) (build_official_image_map rows has_hash_col)
            = some url →
        final_image_of (build_official_image_map rows has_hash_col) style_code raw_items
            min_price max_price exclude_malls = url)
    ∧ (dict_get (py_upper style_code) (build_official_image_map rows has_hash_col) = none →
        final_image_of (build_official_image_map rows has_hash_col) style_code raw_items
            min_price max_price exclude_malls
          = choose_best_image (best_of raw_items min_price max_price exclude_malls)
              (top3_of raw_items min_price max_price exclude_malls)
        ∧ ((∃ b, best_of raw_items min_price max_price exclude_malls = some b
              ∧ py_trim b.image ≠ ""
              ∧ choose_best_image (best_of raw_items min_price max_price exclude_malls)
                  (top3_of raw_items min_price max_price exclude_malls) = py_trim b.image)
           ∨ ((∀ b, best_of raw_items min_price max_price exclude_malls = some b →
                  py_trim b.image = "")
              ∧ choose_best_image (best_of raw_items min_price max_price exclude_malls)
                  (top3_of raw_items min_price max_price exclude_malls)
                = (match (top3_of raw_items min_price max_price exclude_malls).find?
                      (fun it => decide (py_trim it.image ≠ "")) with
                   | some it => py_trim it.image
                   | none => "")))) := by
  constructor
  · intro url hurl
    have hne : url ≠ "" :=
      is_product_url_ne_empty url (build_map_value_is_product rows has_hash_col _ url hurl)
    simp [final_image_of, official_image_of, hurl, hne]
  · intro hnone
    have hoff : official_image_of (build_official_image_map rows has_hash_col) style_code
        = "" := by
      simp [official_image_of, hnone]
    refine ⟨by simp [final_image_of, hoff, naver_image_of], ?_⟩
    cases hb : best_of raw_items min_price max_price exclude_malls with
    | none =>
      right
      refine ⟨fun b hbb => Option.noConfusion hbb, ?_⟩
      simp [choose_best_image, choose_from_items_eq_find]
    | some b =>
      by_cases hi : py_trim b.image = ""
      · right
        refine ⟨fun b2 hb2 => ?_, ?_⟩
        · rw [← Option.some.inj hb2]
          exact hi
        · simp [choose_best_image, hi, choose_from_items_eq_find]
      · left
        exact ⟨b, rfl, hi, by simp [choose_best_image, hi]⟩

/-- C2 witness: the theorem applied to a concrete one-row official map and
one marketplace item — the official URL wins over the marketplace image. -/
theorem c2_image_priority_witness :
    final_image_of
        (build_official_image_map
          [⟨"Coat (C12AB1234567)", "https://x/data/ProductImages/c12ab1234567.webp", none⟩]
          false)
        "c12ab1234567"
        [⟨"45000", "mall", "title", "link", "https://market/img.jpg"⟩]
        none none []
      = "https://x/data/ProductImages/c12ab1234567.webp" :=
  (c2_image_priority
      [⟨"Coat (C12AB1234567)", "https://x/data/ProductImages/c12ab1234567.webp", none⟩]
      false "c12ab1234567"
      [⟨"45000", "mall", "title", "link", "https://market/img.jpg"⟩]
      none none []).1
    "https://x/data/ProductImages/c12ab1234567.webp" (by decide)

/-- Helper: `backoff_from` is the mapped range of exponents. -/
theorem backoff_from_eq_map (base : ℚ) (count : Nat) :
    ∀ first, backoff_from base first count
      = (List.range' first count).map fun a => base * 2 ^ a := by
  induction count with
  | zero => intro first; rfl
  | succ n ih =>
    intro first
    show base * 2 ^ first :: backoff_from base (first + 1) n
        = (first :: List.range' (first + 1) n).map fun a => base * 2 ^ a
    rw [List.map_cons, ih]

/-- Helper for C8: when every attempt up to the ceiling fails with a
transient HTTP error, the loop sleeps `base * 2 ^ a` for each attempt `a`
below the ceiling and returns the empty list. -/
theorem fetch_aux_all_transient (net : Nat → NetOutcome) (max_retries : Nat) (base : ℚ) :
    ∀ fuel attempt, attempt + fuel = max_retries + 1 →
      (∀ a, attempt ≤ a → a ≤ max_retries →
        ∃ c, net a = NetOutcome.httpError c ∧ transient_code c = true) →
      fetch_aux net max_retries base fuel attempt
        = ([], backoff_from base attempt (max_retries - attempt)) := by
  intro fuel
  induction fuel with
  | zero =>
    intro attempt hsum _
    have ha : attempt = max_retries + 1 := by omega
    subst ha
    have h0 : max_retries - (max_retries + 1) = 0 := by omega
    rw [h0]
    rfl
  | succ fuel ih =>
    intro attempt hsum htr
    have hattempt : attempt ≤ max_retries := by omega
    obtain ⟨c, hc, hct⟩ := htr attempt (le_refl _) hattempt
    by_cases hlt : attempt < max_retries
    · have hrec := ih (attempt + 1) (by omega)
        (fun a ha1 ha2 => htr a (by omega) ha2)
      have hcount : max_retries - attempt = (max_retries - (attempt + 1)) + 1 := by omega
      rw [hcount]
      simp [fetch_aux, hc, hlt, hct, hrec, backoff_from]
    · have heq : max_retries - attempt = 0 := by omega
      rw [heq]
      simp [fetch_aux, hc, hlt, backoff_from]

/-- Helper for C8: a success at attempt `k` within the ceiling, preceded
only by transient HTTP errors, returns the parsed items after back-off
sleeps for attempts `0 .. k-1`. -/
theorem fetch_aux_success (net : Nat → NetOutcome) (max_retries : Nat) (base : ℚ)
    (k : Nat) (items : List Item) (hk : k ≤ max_retries)
    (hok : net k = NetOutcome.ok items)
    (htr : ∀ a, a < k → ∃ c, net a = NetOutcome.httpError c ∧ transient_code c = true) :
    ∀ fuel attempt, attempt + fuel = max_retries + 1 → attempt ≤ k →
      fetch_aux net max_retries base fuel attempt
        = (items, backoff_from base attempt (k - attempt)) := by
  intro fuel
  induction fuel with
  | zero =>
    intro attempt hsum hak
    exfalso
    omega
  | succ fuel ih =>
    intro attempt hsum hak
    by_cases hke : attempt = k
    · have hok2 : net attempt = NetOutcome.ok items := by rw [hke]; exact hok
      have h0 : k - attempt = 0 := by omega
      rw [h0]
      simp [fetch_aux, hok2, backoff_from]
    · have hlt : attempt < k := lt_of_le_of_ne hak hke
      obtain ⟨c, hc, hct⟩ := htr attempt hlt
      have hltm : attempt < max_retries := by omega
      have hrec := ih (attempt + 1) (by omega) (by omega)
      have hcount : k - attempt = (k - (attempt + 1)) + 1 := by omega
      rw [hcount]
      simp [fetch_aux, hc, hltm, hct, hrec, backoff_from]

/-- C8: the retry policy of `fetch_naver_shop_with_retry`. The model is
total (every failure path yields a list, never an exception). A first
attempt failing with a non-transient HTTP status (4xx other than 429)
returns `[]` immediately with no sleep and no further attempt; all-transient
HTTP failures are retried with exponential back-off `base_sleep * 2 ^ a`
through the attempt ceiling and then return `[]`; a success at attempt `k`
after transient failures returns its items after exactly the first `k`
back-off sleeps. -/
theorem c8_retry_policy (net : Nat → NetOutcome) (max_retries : Nat) (base_sleep : ℚ) :
    (∀ c, net 0 = NetOutcome.httpError c → transient_code c = false →
        fetch_naver_shop_with_retry net max_retries base_sleep = ([], []))
    ∧ ((∀ a, a ≤ max_retries →
          ∃ c, net a = NetOutcome.httpError c ∧ transient_code c = true) →
        fetch_naver_shop_with_retry net max_retries base_sleep
          = ([], (List.range max_retries).map fun a => base_sleep * 2 ^ a))
    ∧ (∀ k items, k ≤ max_retries → net k = NetOutcome.ok items →
        (∀ a, a < k → ∃ c, net a = NetOutcome.httpError c ∧ transient_code c = true) →
        fetch_naver_shop_with_retry net max_retries base_sleep
          = (items, (List.range k).map fun a => base_sleep * 2 ^ a)) := by
  refine ⟨?_, ?_, ?_⟩
  · intro c hc hct
    show fetch_aux net max_retries base_sleep (max_retries + 1) 0 = ([], [])
    simp [fetch_aux, hc, hct]
  · intro htr
    show fetch_aux net max_retries base_sleep (max_retries + 1) 0 = _
    rw [fetch_aux_all_transient net max_retries base_sleep (max_retries + 1) 0 (by omega)
      (fun a _ ha2 => htr a ha2)]
    rw [Nat.sub_zero, backoff_from_eq_map, ← List.range_eq_range']
  · intro k items hk hok htr
    show fetch_aux net max_retries base_sleep (max_retries + 1) 0 = _
    rw [fetch_aux_success net max_retries base_sleep k items hk hok htr (max_retries + 1) 0
      (by omega) (by omega)]
    rw [Nat.sub_zero, backoff_from_eq_map, ← List.range_eq_range']

/-- Helper: single-character replacement distributes over concatenation. -/
theorem replace_char_append (c : Char) (rep a b : List Char) :
    replace_char c rep (a ++ b) = replace_char c rep a ++ replace_char c rep b := by
  induction a with
  | nil => rfl
  | cons x xs ih =>
    by_cases hx : x = c <;> simp [replace_char, hx, ih]

/-- Helper: the five sequential replacements act per character — each input
character contributes exactly its `esc_char` expansion. -/
theorem safe_attr_chars_cons (c : Char) (s : List Char) :
    safe_attr_chars (c :: s) = esc_char c ++ safe_attr_chars s := by
  have h1 : replace_char amp_c amp_rep (c :: s)
      = (if c = amp_c then amp_rep else [c]) ++ replace_char amp_c amp_rep s := by
    by_cases hc : c = amp_c <;> simp [replace_char, hc]
  unfold safe_attr_chars
  rw [h1, replace_char_append, replace_char_append, replace_char_append,
    replace_char_append]
  congr 1
  by_cases e1 : c = amp_c
  · subst e1; rfl
  · by_cases e2 : c = quot_c
    · subst e2; rfl
    · by_cases e3 : c = apos_c
      · subst e3; rfl
      · by_cases e4 : c = lt_c
        · subst e4; rfl
        · by_cases e5 : c = gt_c
          · subst e5; rfl
          · simp [replace_char, esc_char, e1, e2, e3, e4, e5]

/-- Helper: no character of the escaped output is a quote, apostrophe or
angle bracket. -/
theorem safe_attr_all_no_specials (s : List Char) :
    (safe_attr_chars s).all
        (fun x => !(x == quot_c) && !(x == apos_c) && !(x == lt_c) && !(x == gt_c))
      = true := by
  induction s with
  | nil => rfl
  | cons c cs ih =>
    rw [safe_attr_chars_cons, List.all_append, ih, Bool.and_true]
    by_cases e1 : c = amp_c
    · subst e1; rfl
    · by_cases e2 : c = quot_c
      · subst e2; rfl
      · by_cases e3 : c = apos_c
        · subst e3; rfl
        · by_cases e4 : c = lt_c
          · subst e4; rfl
          · by_cases e5 : c = gt_c
            · subst e5; rfl
            · simp [esc_char, e1, e2, e3, e4, e5]

/-- Helper: an `&amp;` block at the head keeps the ampersand discipline. -/
theorem amp_ok_amp_rep (rest : List Char) : amp_ok (amp_rep ++ rest) = amp_ok rest := rfl

/-- Helper: an `&quot;` block at the head keeps the ampersand discipline. -/
theorem amp_ok_quot_rep (rest : List Char) : amp_ok (quot_rep ++ rest) = amp_ok rest := rfl

/-- Helper: an `&#39;` block at the head keeps the ampersand discipline. -/
theorem amp_ok_apos_rep (rest : List Char) : amp_ok (apos_rep ++ rest) = amp_ok rest := rfl

/-- Helper: an `&lt;` block at the head keeps the ampersand discipline. -/
theorem amp_ok_lt_rep (rest : List Char) : amp_ok (lt_rep ++ rest) = amp_ok rest := rfl

/-- Helper: an `&gt;` block at the head keeps the ampersand discipline. -/
theorem amp_ok_gt_rep (rest : List Char) : amp_ok (gt_rep ++ rest) = amp_ok rest := rfl

/-- Helper: every ampersand of the escaped output starts one of the five
escape entities. -/
theorem safe_attr_amp_ok (s : List Char) : amp_ok (safe_attr_chars s) = true := by
  induction s with
  | nil => rfl
  | cons c cs ih =>
    rw [safe_attr_chars_cons]
    by_cases e1 : c = amp_c
    · subst e1
      rw [show esc_char amp_c = amp_rep from rfl, amp_ok_amp_rep]
      exact ih
    · by_cases e2 : c = quot_c
      · subst e2
        rw [show esc_char quot_c = quot_rep from rfl, amp_ok_quot_rep]
        exact ih
      · by_cases e3 : c = apos_c
        · subst e3
          rw [show esc_char apos_c = apos_rep from rfl, amp_ok_apos_rep]
          exact ih
        · by_cases e4 : c = lt_c
          · subst e4
            rw [show esc_char lt_c = lt_rep from rfl, amp_ok_lt_rep]
            exact ih
          · by_cases e5 : c = gt_c
            · subst e5
              rw [show esc_char gt_c = gt_rep from rfl, amp_ok_gt_rep]
              exact ih
            · have hesc : esc_char c = [c] := by
                simp [esc_char, e1, e2, e3, e4, e5]
              rw [hesc]
              show amp_ok (c :: safe_attr_chars cs) = true
              simp [amp_ok, e1, ih]

/-- C10: for every input string, `_safe_attr`'s output contains none of the
characters `<`, `>`, `"`, `'`, and every ampersand in the output is the
start of one of the five escape entities it introduces (`&amp;`, `&quot;`,
`&#39;`, `&lt;`, `&gt;`), so an escaped value cannot close an attribute or
open a tag in the generated markup. -/
theorem c10_safe_attr_output (s : String) :
    (safe_attr s).data.all
        (fun x => !(x == quot_c) && !(x == apos_c) && !(x == lt_c) && !(x == gt_c))
      = true
    ∧ amp_ok (safe_attr s).data = true := by
  exact ⟨safe_attr_all_no_specials s.data, safe_attr_amp_ok s.data⟩

end PriceTool
